import Mathlib

/-!
Shallow embedding of the employee-record service in
src/empire (srv/parse.c, parse.c, include/parse.h, include/srvpoll.h and
the protocol header common.h), together with theorems settling the
specification claims about it.

Byte sequences are modelled as `List Nat` with every element < 256.
Machine integers are `Nat` with explicit `% 2 ^ w` where the C code can
overflow.  Fallible C functions returning STATUS_SUCCESS / STATUS_ERROR
are modelled as `Bool × State` or `Option`.
-/

/-! ### Compiled-in constants (include/common.h, include/parse.h, include/srvpoll.h) -/

/-- HEADER_MAGIC from include/parse.h: 0x4c4c4144. -/
def HEADER_MAGIC : Nat := 0x4c4c4144

/-- PROTO_VER from include/common.h: the protocol version constant. -/
def PROTO_VER : Nat := 100

/-- CLIENT_BUFFER_SIZE from include/common.h. -/
def CLIENT_BUFFER_SIZE : Nat := 4096

/-- MSG_MAX: number of values of the dbproto_type_e enum before MSG_MAX
(MSG_HELLO_REQ = 0 .. MSG_ERROR = 8, so MSG_MAX = 9). -/
def MSG_MAX : Nat := 9

/-- MSG_EMPLOYEE_LIST_RESP = 3 in dbproto_type_e. -/
def MSG_EMPLOYEE_LIST_RESP : Nat := 3

/-- Size in bytes of struct dbheader_t (include/parse.h).  The struct is
declared __attribute__((__packed__)), so 4 + 2 + 2 + 4 = 12 with no padding. -/
def dbheaderSize : Nat := 12

/-- Size in bytes of struct employee_t (include/parse.h).  Packed:
256 + 256 + 4 = 516. -/
def employeeSize : Nat := 516

/-- Size in bytes of the wire header dbproto_hdr_t (include/common.h).
The struct holds a 4-byte dbproto_type_e enum and a uint16_t and is NOT
declared packed (unlike dbheader_t and employee_t in the same codebase),
so under the standard C ABI it has 2 trailing padding bytes:
sizeof(dbproto_hdr_t) = 8. -/
def hdrSize : Nat := 8

/-! ### Byte-order helpers.  htonl / htons store multi-byte scalars
big-endian in memory; the packed structs are written to the file / socket
verbatim, so the wire bytes are the big-endian digits. -/

/-- Big-endian bytes of a uint16 value (htons view of memory). -/
def be16 (n : Nat) : List Nat := [n / 256 % 256, n % 256]

/-- Big-endian bytes of a uint32 value (htonl view of memory). -/
def be32 (n : Nat) : List Nat :=
  [n / 16777216 % 256, n / 65536 % 256, n / 256 % 256, n % 256]

/-- Read a big-endian uint16 from the first two bytes (ntohs). -/
def rd16 (b : List Nat) : Nat := b.getD 0 0 * 256 + b.getD 1 0

/-- Read a big-endian uint32 from the first four bytes (ntohl). -/
def rd32 (b : List Nat) : Nat :=
  b.getD 0 0 * 16777216 + b.getD 1 0 * 65536 + b.getD 2 0 * 256 + b.getD 3 0

theorem rd16_be16 (n : Nat) (h : n < 65536) : rd16 (be16 n) = n := by
  simp [rd16, be16]
  omega

theorem rd32_be32 (n : Nat) (h : n < 4294967296) : rd32 (be32 n) = n := by
  simp [rd32, be32]
  omega

@[simp] theorem be16_length (n : Nat) : (be16 n).length = 2 := rfl

@[simp] theorem be32_length (n : Nat) : (be32 n).length = 4 := rfl

/-! ### Data model: struct dbheader_t and struct employee_t -/

/-- In-memory struct dbheader_t (host byte order). -/
structure DbHeader where
  magic : Nat
  version : Nat
  count : Nat
  filesize : Nat
deriving DecidableEq, Repr

/-- In-memory struct employee_t.  name and address are the full 256-byte
fixed arrays (characters plus NUL padding); hours is the uint32 field. -/
structure Employee where
  name : List Nat
  address : List Nat
  hours : Nat
deriving DecidableEq, Repr

/-- Well-formedness of an in-memory employee record: the fixed arrays have
their declared size and hours fits in 32 bits. -/
def WFEmployee (e : Employee) : Prop :=
  e.name.length = 256 ∧ e.address.length = 256 ∧ e.hours < 4294967296

instance (e : Employee) : Decidable (WFEmployee e) := by
  unfold WFEmployee; infer_instance

/-! ### Record file codec (src/empire/src/srv/parse.c) -/

/-- create_db_header (srv/parse.c:21-38): fresh header with version =
PROTO_VER, count = 0, magic = HEADER_MAGIC, filesize = sizeof(dbheader_t). -/
def create_db_header : DbHeader :=
  { magic := HEADER_MAGIC, version := PROTO_VER, count := 0,
    filesize := dbheaderSize }

/-- Byte image of one employee record as written by output_file: the two
fixed arrays verbatim followed by hours byte-swapped to big-endian. -/
def encode_employee (e : Employee) : List Nat :=
  e.name ++ e.address ++ be32 e.hours

/-- output_file (srv/parse.c:117-170) as a function to the resulting file
contents.  The header is written with version, count and magic from the
in-memory header and filesize replaced by the recomputed
sizeof(header) + count * sizeof(employee); then employees[0..count) are
written; the file is finally truncated to the recomputed size (a no-op
because that is exactly the number of bytes written). -/
def output_file (hdr : DbHeader) (employees : List Employee) : List Nat :=
  be32 hdr.magic ++ be16 hdr.version ++ be16 hdr.count ++
    be32 (dbheaderSize + hdr.count * employeeSize) ++
    ((employees.take hdr.count).map encode_employee).flatten

/-- validate_db_header (srv/parse.c:47-107): read sizeof(dbheader_t) bytes
from the start of the file (failing on a short read), byte-swap the fields
back to host order, then check magic, version, and that the stored filesize
equals the actual file length. -/
def validate_db_header (file : List Nat) : Option DbHeader :=
  if file.length < dbheaderSize then none
  else
    let magic := rd32 (file.take 4)
    let version := rd16 ((file.drop 4).take 2)
    let count := rd16 ((file.drop 6).take 2)
    let filesize := rd32 ((file.drop 8).take 4)
    if magic ≠ HEADER_MAGIC then none
    else if version ≠ PROTO_VER then none
    else if filesize ≠ file.length then none
    else some { magic := magic, version := version, count := count,
                filesize := filesize }

/-- Decode one 516-byte record image back to an employee (hours ntohl). -/
def decode_employee (bytes : List Nat) : Employee :=
  { name := bytes.take 256,
    address := (bytes.drop 256).take 256,
    hours := rd32 ((bytes.drop 512).take 4) }

/-- Decode count contiguous records. -/
def decode_employees : Nat → List Nat → List Employee
  | 0, _ => []
  | n + 1, bytes => decode_employee bytes :: decode_employees n (bytes.drop employeeSize)

/-- read_employees (srv/parse.c:180-226): seek past the header and read
count * sizeof(employee) bytes (failing if the file is shorter), then
byte-swap each record's hours field back to host order. -/
def read_employees (file : List Nat) (count : Nat) : Option (List Employee) :=
  let region := file.drop dbheaderSize
  if region.length < count * employeeSize then none
  else some (decode_employees count region)

/-! ### Record engine: add_employee / remove_employee -/

/-- Uninitialized heap memory modelled as one fixed junk record (the C
contents of fresh realloc space are unspecified and never observable
through the first count entries). -/
def uninitEmployee : Employee :=
  { name := List.replicate 256 0, address := List.replicate 256 0, hours := 0 }

/-- realloc of the employee array to n entries: the first min(old, n)
entries are preserved, memory beyond the old length is uninitialized. -/
def reallocEmployees (l : List Employee) (n : Nat) : List Employee :=
  if l.length ≤ n then l ++ List.replicate (n - l.length) uninitEmployee
  else l.take n

/-- Observable engine state: the count field of dbheader_t (a uint16_t,
arithmetic on it is taken modulo 65536) and the heap array of records. -/
structure DbState where
  count : Nat
  employees : List Employee
deriving DecidableEq, Repr

/-- Records the engine exposes: the first count entries of the array
(list_employees and fsm_handle_list_employees read exactly these). -/
def observable (st : DbState) : List Employee := st.employees.take st.count

/-- One pass of strtok(s, "-") driven to completion ('-' is byte 45):
maximal nonempty runs of non-separator bytes.  strtok skips leading
separators, collapses runs of separators and never yields an empty
token. -/
def strtokAux : List Nat → List Nat → List (List Nat)
  | [], acc => if acc.isEmpty then [] else [acc.reverse]
  | c :: rest, acc =>
    if c = 45 then
      if acc.isEmpty then strtokAux rest [] else acc.reverse :: strtokAux rest []
    else strtokAux rest (c :: acc)

/-- All tokens strtok(.., "-") produces for a string. -/
def strtok_tokens (s : List Nat) : List (List Nat) := strtokAux s []

/-- isspace bytes skipped by strtol: space, tab, newline, vertical tab,
form feed, carriage return. -/
def isSpaceByte (c : Nat) : Bool := c = 32 || (9 ≤ c && c ≤ 13)

/-- isdigit bytes. -/
def isDigitByte (c : Nat) : Bool := 48 ≤ c && c ≤ 57

/-- Numeric value of a run of digit bytes. -/
def digitsVal (ds : List Nat) : Nat := ds.foldl (fun a c => a * 10 + (c - 48)) 0

/-- strtol(t, &end, 10) followed by the checks of add_employee
(srv/parse.c:282-297): strtol skips leading whitespace, accepts an
optional sign and a nonempty digit run; the code then requires the whole
token consumed (end points at the NUL), at least one digit, no ERANGE
overflow of long, and a value in [0, UINT_MAX].  Returns the stored
uint32 hours on success. -/
def add_parse_hours (t : List Nat) : Option Nat :=
  let s1 := t.dropWhile (fun c => isSpaceByte c)
  let signRest : Bool × List Nat :=
    match s1 with
    | 43 :: r => (false, r)
    | 45 :: r => (true, r)
    | _ => (false, s1)
  let neg := signRest.1
  let digits := signRest.2.takeWhile (fun c => isDigitByte c)
  let rest := signRest.2.dropWhile (fun c => isDigitByte c)
  let v := digitsVal digits
  let erange := if neg then 9223372036854775808 < v else 9223372036854775807 < v
  if rest ≠ [] ∨ digits = [] ∨ erange then none
  else
    let hoursLong : Int := if neg then -(v : Int) else (v : Int)
    if hoursLong < 0 ∨ (4294967295 : Int) < hoursLong then none
    else some hoursLong.toNat

/-- strncpy(dst, src, 255) followed by dst[255] = 0 into a 256-byte field:
the first min(len, 255) source bytes, zero-padded to 256 bytes. -/
def truncField (t : List Nat) : List Nat :=
  t.take 255 ++ List.replicate (256 - min t.length 255) 0

/-- add_employee (srv/parse.c:236-302).  Returns (status, new state) with
status = true for STATUS_SUCCESS.  The add-string is tokenized with
strtok(.., "-") and rejected unless it yields exactly three tokens; then
the array is realloc-ed to count + 1 entries and the name and address
tokens are strncpy-ed into slot count; then the hours token is parsed and
range-checked; only on success is the hours field stored and count
incremented (count is a uint16_t, so the increment wraps modulo 65536;
the function performs no count == 65535 check). -/
def add_employee (st : DbState) (addstring : List Nat) : Bool × DbState :=
  match strtok_tokens addstring with
  | [name, address, hoursStr] =>
    let arr1 := reallocEmployees st.employees (st.count + 1)
    let idx := st.count
    let arr2 := arr1.set idx
      { arr1.getD idx uninitEmployee with
        name := truncField name, address := truncField address }
    match add_parse_hours hoursStr with
    | none => (false, { st with employees := arr2 })
    | some h =>
      let arr3 := arr2.set idx { arr2.getD idx uninitEmployee with hours := h }
      (true, { count := (st.count + 1) % 65536, employees := arr3 })
  | _ => (false, st)

/-- add_employee of the batch CLI (src/empire/src/parse.c:162-221).  This
variant increments count first (uint16_t, wrapping), reallocs, tokenizes
with only three strtok calls (no extra-token check), writes slot
count - 1, and decrements count again (wrapping) on every failure path.
At count = 65535 the slot index count - 1 underflows in C (undefined
behaviour); theorems about this function therefore assume
count < 65535. -/
def add_employee_cli (st : DbState) (addstring : List Nat) : Bool × DbState :=
  let count1 := (st.count + 1) % 65536
  let arr1 := reallocEmployees st.employees count1
  match strtok_tokens addstring with
  | name :: address :: hoursStr :: _ =>
    let idx := count1 - 1
    let arr2 := arr1.set idx
      { arr1.getD idx uninitEmployee with
        name := truncField name, address := truncField address }
    match add_parse_hours hoursStr with
    | none => (false, { count := (count1 + 65535) % 65536, employees := arr2 })
    | some h =>
      let arr3 := arr2.set idx { arr2.getD idx uninitEmployee with hours := h }
      (true, { count := count1, employees := arr3 })
  | _ => (false, { count := (count1 + 65535) % 65536, employees := arr1 })

/-- remove_employee (srv/parse.c:311-346; the CLI version at
parse.c:223-247 is identical on the modelled state).  Fails when count is
0; otherwise decrements count, frees the array when it becomes empty, and
otherwise shrinks it with realloc (a failed shrink in C keeps the old
array, which agrees with the shrunk one on the observable first count - 1
entries; the model takes the successful shrink). -/
def remove_employee (st : DbState) : Bool × DbState :=
  if st.count = 0 then (false, st)
  else
    let count2 := st.count - 1
    if count2 = 0 then (true, { count := 0, employees := [] })
    else (true, { count := count2,
                  employees := reallocEmployees st.employees count2 })

/-- Engine operations of claim C2. -/
inductive EngineOp where
  | add (s : List Nat)
  | removeLast
deriving DecidableEq, Repr

/-- Apply one operation to the engine state (the returned status is
dropped; a failed operation keeps the state the handler left behind). -/
def engineStep (st : DbState) (op : EngineOp) : DbState :=
  match op with
  | .add s => (add_employee st s).2
  | .removeLast => (remove_employee st).2

/-- Run a sequence of operations left to right. -/
def engineRun (ops : List EngineOp) (st : DbState) : DbState :=
  ops.foldl engineStep st

/-- Record parsed from an add-string: defined exactly by the pieces
add_employee stores on success. -/
def parsedRecord (s : List Nat) : Option Employee :=
  match strtok_tokens s with
  | [name, address, hoursStr] =>
    (add_parse_hours hoursStr).map fun v =>
      { name := truncField name, address := truncField address, hours := v }
  | _ => none

/-- Reference step of claim C2: a successful add appends the parsed
record, a successful remove_last drops the final element, failed
operations change nothing. -/
def refStep (l : List Employee) (op : EngineOp) : List Employee :=
  match op with
  | .add s =>
    match parsedRecord s with
    | some e => l ++ [e]
    | none => l
  | .removeLast => if l.isEmpty then l else l.dropLast

/-- Run the reference semantics left to right. -/
def refRun (ops : List EngineOp) (l : List Employee) : List Employee :=
  ops.foldl refStep l

/-- Boundedness of an operation sequence: after every prefix the reference
list holds at most 65535 records (so the uint16_t count never wraps). -/
def refBounded : List EngineOp → List Employee → Bool
  | [], _ => true
  | op :: rest, l =>
    decide ((refStep l op).length ≤ 65535) && refBounded rest (refStep l op)

/-- Modelled from the spec words of claim C9: the hours field is "a
decimal integer in [0, 2^32 - 1]" — a nonempty string of decimal digits
whose value is below 2^32. -/
def specDecimalInRange (s : List Nat) : Prop :=
  s ≠ [] ∧ (∀ c ∈ s, 48 ≤ c ∧ c ≤ 57) ∧ digitsVal s < 4294967296

instance (s : List Nat) : Decidable (specDecimalInRange s) := by
  unfold specDecimalInRange; infer_instance

/-! ### Wire framing and the per-connection reassembler
(handle_client_fsm, srv/parse.c:1018-1139) -/

/-- One wire frame: the message kind and the body bytes. -/
structure Frame where
  kind : Nat
  body : List Nat
deriving DecidableEq, Repr

/-- Well-formed frame: kind below MSG_MAX and a total size that fits the
4096-byte connection buffer. -/
def WFFrame (f : Frame) : Prop :=
  f.kind < MSG_MAX ∧ hdrSize + f.body.length ≤ CLIENT_BUFFER_SIZE

instance (f : Frame) : Decidable (WFFrame f) := by
  unfold WFFrame; infer_instance

/-- Total size in bytes of a frame on the wire. -/
def frameSize (f : Frame) : Nat := hdrSize + f.body.length

/-- Byte image of a frame as the peers build it: 4-byte big-endian kind,
2-byte big-endian body length, the two (zeroed) padding bytes of the
unpacked dbproto_hdr_t, then the body. -/
def encode_frame (f : Frame) : List Nat :=
  be32 f.kind ++ be16 f.body.length ++ [0, 0] ++ f.body

/-- Byte image of a frame sequence. -/
def encode_frames (fs : List Frame) : List Nat :=
  (fs.map encode_frame).flatten

/-- Per-connection reassembler state (clientstate_t): the buffered bytes
(buffer_pos is their number), msg_expected_len, whether the connection
was closed, and the frames dispatched so far (the per-state handler
switch of handle_client_fsm is abstracted to frame delivery). -/
structure ConnState where
  buffer : List Nat
  expected : Nat
  closed : Bool
  dispatched : List Frame
deriving DecidableEq, Repr

/-- The drain loop of handle_client_fsm (srv/parse.c:1040-1138).  While at
least sizeof(dbproto_hdr_t) bytes are buffered: on first sight of a
message (msg_expected_len == 0) decode the header, close on
kind >= MSG_MAX or sizeof(hdr) + len > CLIENT_BUFFER_SIZE, else remember
the expected total length; once the buffer holds a complete message,
dispatch it (kind from bytes 0..3 big-endian, body from offset
sizeof(hdr)), compact the buffer by dropping the consumed bytes and reset
msg_expected_len to 0.  Closing (fsm_reply_error followed by
close_client_connection) zeroes buffer_pos and msg_expected_len.  The
in-place ntohl/ntohs of the header rewrites only bytes of the consumed
prefix, so it is invisible here. -/
def drainLoop (buf : List Nat) (expected : Nat) (out : List Frame) : ConnState :=
  if hb : buf.length < hdrSize then
    { buffer := buf, expected := expected, closed := false, dispatched := out }
  else
    match expected with
    | 0 =>
      if MSG_MAX ≤ rd32 (buf.take 4) then
        { buffer := [], expected := 0, closed := true, dispatched := out }
      else if CLIENT_BUFFER_SIZE < hdrSize + rd16 ((buf.drop 4).take 2) then
        { buffer := [], expected := 0, closed := true, dispatched := out }
      else if hdrSize + rd16 ((buf.drop 4).take 2) ≤ buf.length then
        drainLoop (buf.drop (hdrSize + rd16 ((buf.drop 4).take 2))) 0
          (out ++ [{ kind := rd32 (buf.take 4),
                     body := (buf.drop hdrSize).take (rd16 ((buf.drop 4).take 2)) }])
      else
        { buffer := buf, expected := hdrSize + rd16 ((buf.drop 4).take 2),
          closed := false, dispatched := out }
    | e + 1 =>
      if e + 1 ≤ buf.length then
        drainLoop (buf.drop (e + 1)) 0
          (out ++ [{ kind := rd32 (buf.take 4),
                     body := (buf.drop hdrSize).take (e + 1 - hdrSize) }])
      else
        { buffer := buf, expected := e + 1, closed := false, dispatched := out }
termination_by buf.length
decreasing_by
  all_goals simp only [List.length_drop]
  all_goals simp only [hdrSize] at hb
  all_goals try simp only [hdrSize]
  all_goals omega

/-- Deliver the bytes of one arrival chunk to handle_client_fsm: each recv
consumes at most the free capacity CLIENT_BUFFER_SIZE - buffer_pos (the
remainder stays queued on the socket and retriggers readiness), and each
delivery is followed by the drain loop.  recv on a full buffer reads 0
bytes, which the code treats as a disconnect; an empty pending chunk
means the data was consumed. -/
def feedChunk (c : ConnState) (data : List Nat) : ConnState :=
  if c.closed then c
  else
    match data with
    | [] => c
    | d :: ds =>
      if hs : CLIENT_BUFFER_SIZE - c.buffer.length = 0 then
        { c with closed := true }
      else
        feedChunk
          (drainLoop (c.buffer ++ (d :: ds).take (CLIENT_BUFFER_SIZE - c.buffer.length))
            c.expected c.dispatched)
          ((d :: ds).drop (CLIENT_BUFFER_SIZE - c.buffer.length))
termination_by data.length
decreasing_by
  simp only [List.length_drop, List.length_cons]
  omega

/-- Feed a sequence of arrival chunks through the reassembler, starting
from the fresh connection state. -/
def processChunks (chunks : List (List Nat)) : ConnState :=
  chunks.foldl feedChunk
    { buffer := [], expected := 0, closed := false, dispatched := [] }

/-- Cached msg_expected_len the drain loop leaves for a buffered residue:
0 until a full header is present, then the total size of the pending
frame. -/
def residueExpected (gs : List Frame) (r : List Nat) : Nat :=
  match gs with
  | g :: _ => if hdrSize ≤ r.length then frameSize g else 0
  | [] => 0

/-- Reassembler invariant between arrival chunks, tying a connection state
to the frames not yet dispatched (gs) and the bytes still to arrive
(future). -/
def ConnInv (c : ConnState) (gs : List Frame) (future : List Nat) : Prop :=
  c.closed = false ∧
  c.buffer ++ future = encode_frames gs ∧
  (gs = [] → c.buffer = []) ∧
  (∀ g gs2, gs = g :: gs2 → c.buffer.length < frameSize g) ∧
  (c.buffer.length < hdrSize → c.expected = 0) ∧
  (hdrSize ≤ c.buffer.length →
    ∃ g gs2, gs = g :: gs2 ∧ c.expected = frameSize g)

/-! ### ListResp wire shape (fsm_handle_list_employees, srv/parse.c:921-967) -/

/-- Wire output of fsm_handle_list_employees as the sequence of send_full
calls: the response header fields, the 2-byte big-endian count body, then
one sizeof(struct employee_t)-byte chunk per sent record. -/
structure ListRespWire where
  respType : Nat
  respLen : Nat
  countBytes : List Nat
  trailing : List (List Nat)
deriving DecidableEq, Repr

/-- fsm_handle_list_employees: a ListReq with a nonempty body is answered
with MSG_ERROR and the connection closes (none); otherwise the response
header carries type MSG_EMPLOYEE_LIST_RESP and
len = sizeof(dbproto_employee_list_resp_t) = 2, the body is the 2-byte
big-endian count, and employees[0..count) follow as separate
record-sized sends with hours byte-swapped — not counted in len. -/
def fsm_handle_list_employees (count : Nat) (employees : List Employee)
    (reqLen : Nat) : Option ListRespWire :=
  if reqLen ≠ 0 then none
  else some
    { respType := MSG_EMPLOYEE_LIST_RESP,
      respLen := 2,
      countBytes := be16 count,
      trailing := (employees.take count).map encode_employee }

/-! ### Lemmas about the record-file codec -/

theorem encode_employee_length (e : Employee) (h : WFEmployee e) :
    (encode_employee e).length = employeeSize := by
  obtain ⟨h1, h2, _⟩ := h
  simp [encode_employee, employeeSize, h1, h2]

theorem flatten_encode_length (es : List Employee) (h : ∀ e ∈ es, WFEmployee e) :
    ((es.map encode_employee).flatten).length = es.length * employeeSize := by
  induction es with
  | nil => simp
  | cons e es ih =>
    simp only [List.map_cons, List.flatten_cons, List.length_append, List.length_cons]
    rw [encode_employee_length e (h e (by simp)), ih (fun x hx => h x (by simp [hx]))]
    ring

theorem decode_employee_encode (e : Employee) (R : List Nat) (h : WFEmployee e) :
    decode_employee (encode_employee e ++ R) = e := by
  obtain ⟨hn, ha, hh⟩ := h
  cases e with
  | mk nm ad hr =>
    simp only [Employee.name] at hn
    simp only [Employee.address] at ha
    simp only [Employee.hours] at hh
    have hna : (nm ++ ad).length = 512 := by simp [hn, ha]
    simp only [decode_employee, encode_employee, Employee.mk.injEq, List.append_assoc]
    refine ⟨?_, ?_, ?_⟩
    · exact List.take_left' hn
    · rw [List.drop_left' hn, List.take_left' ha]
    · rw [← List.append_assoc nm ad, List.drop_left' hna,
        List.take_left' (be32_length hr), rd32_be32 hr hh]

theorem decode_encode_employees (es : List Employee) (h : ∀ e ∈ es, WFEmployee e) :
    decode_employees es.length ((es.map encode_employee).flatten) = es := by
  induction es with
  | nil => rfl
  | cons e es ih =>
    have he : WFEmployee e := h e (by simp)
    have hrest : ∀ x ∈ es, WFEmployee x := fun x hx => h x (by simp [hx])
    simp only [List.map_cons, List.flatten_cons, List.length_cons, decode_employees]
    rw [decode_employee_encode e _ he,
      List.drop_left' (encode_employee_length e he), ih hrest]

theorem output_file_take4 (hdr : DbHeader) (es : List Employee) :
    (output_file hdr es).take 4 = be32 hdr.magic := rfl

theorem output_file_drop4 (hdr : DbHeader) (es : List Employee) :
    ((output_file hdr es).drop 4).take 2 = be16 hdr.version := rfl

theorem output_file_drop6 (hdr : DbHeader) (es : List Employee) :
    ((output_file hdr es).drop 6).take 2 = be16 hdr.count := rfl

theorem output_file_drop8 (hdr : DbHeader) (es : List Employee) :
    ((output_file hdr es).drop 8).take 4
      = be32 (dbheaderSize + hdr.count * employeeSize) := rfl

theorem output_file_drop12 (hdr : DbHeader) (es : List Employee) :
    (output_file hdr es).drop 12
      = ((es.take hdr.count).map encode_employee).flatten := rfl

theorem output_file_length (hdr : DbHeader) (es : List Employee)
    (hcount : hdr.count = es.length) (hwf : ∀ e ∈ es, WFEmployee e) :
    (output_file hdr es).length = dbheaderSize + hdr.count * employeeSize := by
  have h : ((es.take hdr.count).map encode_employee).flatten.length
      = hdr.count * employeeSize := by
    rw [hcount, List.take_length, flatten_encode_length es hwf]
  simp only [output_file, List.length_append, be32_length, be16_length, h,
    dbheaderSize]

/-- Claim C1.  For every header with valid magic and version and every
record list whose length equals header.count, writing with output_file and
re-opening with validate_db_header followed by read_employees succeeds and
returns the same count and the identical record list. -/
theorem c1_save_load_roundtrip (hdr : DbHeader) (es : List Employee)
    (hmagic : hdr.magic = HEADER_MAGIC) (hver : hdr.version = PROTO_VER)
    (hcount : hdr.count = es.length) (hlt : hdr.count < 65536)
    (hwf : ∀ e ∈ es, WFEmployee e) :
    validate_db_header (output_file hdr es)
      = some { magic := HEADER_MAGIC, version := PROTO_VER, count := hdr.count,
               filesize := dbheaderSize + hdr.count * employeeSize } ∧
    read_employees (output_file hdr es) hdr.count = some es := by
  have hflen := output_file_length hdr es hcount hwf
  have hbody : ((es.take hdr.count).map encode_employee).flatten.length
      = hdr.count * employeeSize := by
    rw [hcount, List.take_length, flatten_encode_length es hwf]
  constructor
  · have hnlt : ¬ (output_file hdr es).length < dbheaderSize := by
      rw [hflen]; omega
    rw [validate_db_header, if_neg hnlt]
    rw [output_file_take4, output_file_drop4, output_file_drop6,
      output_file_drop8, hmagic, hver]
    rw [rd32_be32 HEADER_MAGIC (by decide), rd16_be16 PROTO_VER (by decide),
      rd16_be16 hdr.count hlt,
      rd32_be32 (dbheaderSize + hdr.count * employeeSize) (by
        simp only [dbheaderSize, employeeSize]; omega)]
    rw [if_neg (by simp), if_neg (by simp),
      if_neg (by rw [hflen]; exact fun h => h rfl)]
  · rw [read_employees]
    have hreg : (output_file hdr es).drop dbheaderSize
        = ((es.take hdr.count).map encode_employee).flatten :=
      output_file_drop12 hdr es
    rw [hreg, hbody, if_neg (by omega)]
    rw [hcount, List.take_length, decode_encode_employees es hwf]

set_option maxRecDepth 10000 in
/-- Witness for C1 at a concrete header and one-record list. -/
theorem c1_save_load_roundtrip_witness :
    (∀ e ∈ [Employee.mk (97 :: List.replicate 255 0) (98 :: List.replicate 255 0) 40],
        WFEmployee e) ∧
    (validate_db_header (output_file
        { magic := HEADER_MAGIC, version := PROTO_VER, count := 1, filesize := 999 }
        [Employee.mk (97 :: List.replicate 255 0) (98 :: List.replicate 255 0) 40])
      = some { magic := HEADER_MAGIC, version := PROTO_VER, count := 1,
               filesize := dbheaderSize + 1 * employeeSize } ∧
     read_employees (output_file
        { magic := HEADER_MAGIC, version := PROTO_VER, count := 1, filesize := 999 }
        [Employee.mk (97 :: List.replicate 255 0) (98 :: List.replicate 255 0) 40]) 1
      = some [Employee.mk (97 :: List.replicate 255 0) (98 :: List.replicate 255 0) 40]) :=
  ⟨by decide, c1_save_load_roundtrip _ _ rfl rfl (by simp) (by decide) (by decide)⟩

/-! ### Lemmas about the record engine -/

theorem realloc_length (l : List Employee) (n : Nat) :
    (reallocEmployees l n).length = n := by
  unfold reallocEmployees
  split
  · simp; omega
  · simp; omega

theorem realloc_take (l : List Employee) (n k : Nat) (hk : k ≤ l.length)
    (hkn : k ≤ n) : (reallocEmployees l n).take k = l.take k := by
  unfold reallocEmployees
  split
  · exact List.take_append_of_le_length hk
  · rw [List.take_take, min_eq_left hkn]

theorem take_set_ge {α : Type} (l : List α) (i n : Nat) (e : α) (h : n ≤ i) :
    (l.set i e).take n = l.take n := by
  rw [List.set_take]
  exact List.set_eq_of_length_le (le_trans (List.length_take_le n l) h)

theorem getD_set_self {α : Type} (l : List α) (i : Nat) (e d : α)
    (h : i < l.length) : (l.set i e).getD i d = e := by
  rw [List.getD_eq_getElem _ d (by rw [List.length_set]; exact h)]
  exact List.getElem_set_self _

theorem add_employee_parsed_some (st : DbState) (s : List Nat) (e : Employee)
    (hp : parsedRecord s = some e) :
    add_employee st s =
      (true, { count := (st.count + 1) % 65536,
               employees :=
                 (reallocEmployees st.employees (st.count + 1)).set st.count e }) := by
  rcases htok : strtok_tokens s with _ | ⟨n, _ | ⟨a, _ | ⟨h, _ | ⟨x, xs⟩⟩⟩⟩
  · simp [parsedRecord, htok] at hp
  · simp [parsedRecord, htok] at hp
  · simp [parsedRecord, htok] at hp
  · simp only [parsedRecord, htok] at hp
    cases hv : add_parse_hours h with
    | none => rw [hv] at hp; simp at hp
    | some v =>
      rw [hv] at hp
      simp only [Option.map_some'] at hp
      have he := Option.some.inj hp
      subst he
      have hlen1 : st.count < (reallocEmployees st.employees (st.count + 1)).length := by
        rw [realloc_length]; omega
      simp only [add_employee, htok, hv]
      rw [getD_set_self _ _ _ _ hlen1, List.set_set]
  · simp [parsedRecord, htok] at hp

theorem add_employee_parsed_none (st : DbState) (s : List Nat)
    (hle : st.count ≤ st.employees.length) (hp : parsedRecord s = none) :
    (add_employee st s).1 = false ∧ (add_employee st s).2.count = st.count ∧
    (add_employee st s).2.employees.take st.count = st.employees.take st.count := by
  rcases htok : strtok_tokens s with _ | ⟨n, _ | ⟨a, _ | ⟨h, _ | ⟨x, xs⟩⟩⟩⟩
  · simp [add_employee, htok]
  · simp [add_employee, htok]
  · simp [add_employee, htok]
  · simp only [parsedRecord, htok] at hp
    cases hv : add_parse_hours h with
    | some v => rw [hv] at hp; simp at hp
    | none =>
      refine ⟨?_, ?_, ?_⟩
      · simp [add_employee, htok, hv]
      · simp [add_employee, htok, hv]
      · simp only [add_employee, htok, hv]
        rw [take_set_ge _ _ _ _ (le_refl st.count),
          realloc_take _ _ _ hle (Nat.le_succ _)]
  · simp [add_employee, htok]

theorem engineStep_matches (st : DbState) (l : List Employee) (op : EngineOp)
    (hobs : observable st = l) (hcnt : st.count = l.length)
    (hb : (refStep l op).length ≤ 65535) :
    observable (engineStep st op) = refStep l op ∧
    (engineStep st op).count = (refStep l op).length := by
  have hle : st.count ≤ st.employees.length := by
    have h1 : l.length = min st.count st.employees.length := by
      rw [← hobs]; exact (List.length_take _ _)
    omega
  have hobs2 : List.take st.count st.employees = l := hobs
  cases op with
  | add s =>
    cases hp : parsedRecord s with
    | none =>
      have hfail := add_employee_parsed_none st s hle hp
      have hrs : refStep l (EngineOp.add s) = l := by simp [refStep, hp]
      refine ⟨?_, ?_⟩
      · show observable (add_employee st s).2 = _
        rw [hrs, ← hobs]
        show (add_employee st s).2.employees.take (add_employee st s).2.count
          = st.employees.take st.count
        rw [hfail.2.1, hfail.2.2]
      · show (add_employee st s).2.count = _
        rw [hrs, hfail.2.1, hcnt]
    | some e =>
      have hrs : refStep l (EngineOp.add s) = l ++ [e] := by simp [refStep, hp]
      rw [hrs] at hb
      have hlt : st.count + 1 < 65536 := by
        simp only [List.length_append, List.length_cons, List.length_nil] at hb
        omega
      have hsucc := add_employee_parsed_some st s e hp
      have harr : (reallocEmployees st.employees (st.count + 1)).set st.count e
          = l ++ [e] := by
        have hrlen : (reallocEmployees st.employees (st.count + 1)).length
            = st.count + 1 := realloc_length _ _
        rw [List.set_eq_take_cons_drop e (by omega),
          List.drop_eq_nil_of_le (by omega),
          realloc_take _ _ _ hle (Nat.le_succ _), hobs2]
      refine ⟨?_, ?_⟩
      · show observable (add_employee st s).2 = _
        rw [hsucc, hrs]
        show ((reallocEmployees st.employees (st.count + 1)).set st.count e).take
          ((st.count + 1) % 65536) = l ++ [e]
        rw [Nat.mod_eq_of_lt hlt, harr]
        apply List.take_of_length_le
        simp [hcnt]
      · show (add_employee st s).2.count = _
        rw [hsucc, hrs]
        show (st.count + 1) % 65536 = (l ++ [e]).length
        rw [Nat.mod_eq_of_lt hlt]
        simp [hcnt]
  | removeLast =>
    by_cases h0 : st.count = 0
    · have hl : l = [] := by
        apply List.eq_nil_of_length_eq_zero; omega
      have hrs : refStep l EngineOp.removeLast = l := by simp [refStep, hl]
      have hstep : engineStep st EngineOp.removeLast = st := by
        simp [engineStep, remove_employee, h0]
      rw [hstep, hrs]
      exact ⟨hobs, hcnt⟩
    · have hlen : 1 ≤ l.length := by omega
      have hlne : ¬ l.isEmpty := by
        cases l with
        | nil => simp at hlen
        | cons a t => simp
      have hrs : refStep l EngineOp.removeLast = l.dropLast := by
        simp only [refStep]
        rw [if_neg (by simp_all)]
      rw [hrs]
      have hdl : l.dropLast = l.take (l.length - 1) := List.dropLast_eq_take l
      by_cases h1 : st.count - 1 = 0
      · have hc1 : st.count = 1 := by omega
        have hstep : engineStep st EngineOp.removeLast
            = { count := 0, employees := [] } := by
          simp [engineStep, remove_employee, h0, h1]
        rw [hstep]
        constructor
        · show ([] : List Employee).take 0 = l.dropLast
          rw [hdl]
          have : l.length - 1 = 0 := by omega
          simp [this]
        · show 0 = l.dropLast.length
          rw [List.length_dropLast]
          omega
      · have hstep : engineStep st EngineOp.removeLast
            = { count := st.count - 1,
                employees := reallocEmployees st.employees (st.count - 1) } := by
          simp [engineStep, remove_employee, h0, h1]
        rw [hstep]
        constructor
        · show (reallocEmployees st.employees (st.count - 1)).take (st.count - 1)
            = l.dropLast
          have hdl2 : l.dropLast = l.take (st.count - 1) := by
            rw [List.dropLast_eq_take]; congr 1; omega
          rw [realloc_take _ _ _ (by omega) (le_refl _), hdl2, ← hobs2,
            List.take_take]
          congr 1
          omega
        · show st.count - 1 = l.dropLast.length
          rw [List.length_dropLast]
          omega

theorem engineRun_matches (ops : List EngineOp) :
    ∀ (st : DbState) (l : List Employee),
      observable st = l → st.count = l.length → refBounded ops l = true →
      observable (engineRun ops st) = refRun ops l ∧
      (engineRun ops st).count = (refRun ops l).length := by
  induction ops with
  | nil =>
    intro st l h1 h2 _
    exact ⟨h1, h2⟩
  | cons op ops ih =>
    intro st l h1 h2 hb
    simp only [refBounded, Bool.and_eq_true, decide_eq_true_eq] at hb
    have hstep := engineStep_matches st l op h1 h2 hb.1
    show observable (engineRun ops (engineStep st op)) = refRun ops (refStep l op) ∧ _
    exact ih (engineStep st op) (refStep l op) hstep.1 hstep.2 hb.2

/-- Claim C2 (amended).  For every finite sequence of add / remove_last
operations applied to the initially empty engine during which the record
count never exceeds 65535, the observable record list equals the
reference semantics of the sequence and header.count equals its length. -/
theorem c2_engine_matches_reference (ops : List EngineOp)
    (hb : refBounded ops [] = true) :
    observable (engineRun ops { count := 0, employees := [] }) = refRun ops [] ∧
    (engineRun ops { count := 0, employees := [] }).count
      = (refRun ops []).length :=
  engineRun_matches ops _ [] rfl rfl hb

/-- Witness for C2 at a concrete operation sequence: a good add ("a-b-1"),
a malformed add, and two removes (the second failing on the empty list). -/
theorem c2_engine_matches_reference_witness :
    refBounded [EngineOp.add [97, 45, 98, 45, 49], EngineOp.add [120],
        EngineOp.removeLast, EngineOp.removeLast] [] = true ∧
    (observable (engineRun [EngineOp.add [97, 45, 98, 45, 49], EngineOp.add [120],
          EngineOp.removeLast, EngineOp.removeLast] { count := 0, employees := [] })
        = refRun [EngineOp.add [97, 45, 98, 45, 49], EngineOp.add [120],
          EngineOp.removeLast, EngineOp.removeLast] [] ∧
      (engineRun [EngineOp.add [97, 45, 98, 45, 49], EngineOp.add [120],
          EngineOp.removeLast, EngineOp.removeLast] { count := 0, employees := [] }).count
        = (refRun [EngineOp.add [97, 45, 98, 45, 49], EngineOp.add [120],
          EngineOp.removeLast, EngineOp.removeLast] []).length) :=
  ⟨by decide, c2_engine_matches_reference _ (by decide)⟩

theorem engineRun_replicate_add_count (s : List Nat) (e : Employee)
    (hp : parsedRecord s = some e) :
    ∀ (nrep : Nat) (st : DbState), st.count < 65536 →
      (engineRun (List.replicate nrep (EngineOp.add s)) st).count
        = (st.count + nrep) % 65536 := by
  intro nrep
  induction nrep with
  | zero =>
    intro st hlt
    show st.count = (st.count + 0) % 65536
    rw [Nat.add_zero, Nat.mod_eq_of_lt hlt]
  | succ n ih =>
    intro st hlt
    rw [List.replicate_succ]
    show (engineRun (List.replicate n (EngineOp.add s))
      (engineStep st (EngineOp.add s))).count = _
    have hc : (engineStep st (EngineOp.add s)).count = (st.count + 1) % 65536 := by
      show (add_employee st s).2.count = _
      rw [add_employee_parsed_some st s e hp]
    rw [ih _ (by rw [hc]; exact Nat.mod_lt _ (by omega)), hc, Nat.mod_add_mod]
    congr 1
    omega

theorem refRun_replicate_add_length (s : List Nat) (e : Employee)
    (hp : parsedRecord s = some e) :
    ∀ (nrep : Nat) (l : List Employee),
      (refRun (List.replicate nrep (EngineOp.add s)) l).length
        = l.length + nrep := by
  intro nrep
  induction nrep with
  | zero => intro l; rfl
  | succ n ih =>
    intro l
    rw [List.replicate_succ]
    show (refRun (List.replicate n (EngineOp.add s)) (refStep l (EngineOp.add s))).length = _
    rw [ih]
    simp [refStep, hp]
    omega

/-- Counterexample for C2 as stated: 65536 successful adds from the empty
engine wrap the uint16_t count back to 0, so the observable list (empty)
differs from the reference list (65536 records). -/
theorem c2_counterexample :
    ¬ observable (engineRun (List.replicate 65536 (EngineOp.add [97, 45, 98, 45, 49]))
          { count := 0, employees := [] })
        = refRun (List.replicate 65536 (EngineOp.add [97, 45, 98, 45, 49])) [] := by
  intro heq
  have hp : parsedRecord [97, 45, 98, 45, 49]
      = some { name := truncField [97], address := truncField [98], hours := 1 } := rfl
  have hc := engineRun_replicate_add_count _ _ hp 65536
    { count := 0, employees := [] } (by decide)
  have hr := refRun_replicate_add_length _ _ hp 65536 []
  have hlen := congrArg List.length heq
  have hobs : (observable (engineRun (List.replicate 65536
      (EngineOp.add [97, 45, 98, 45, 49])) { count := 0, employees := [] })).length
      ≤ (engineRun (List.replicate 65536 (EngineOp.add [97, 45, 98, 45, 49]))
          { count := 0, employees := [] }).count :=
    List.length_take_le _ _
  simp only [List.length_nil] at hr
  omega

/-! ### Claim C6: header version constant -/

/-- Claim C6 (amended).  The header version written by create_db_header is
the constant PROTO_VER = 100 (not 1), equal to the protocol version, and
validate_db_header rejects any file whose stored version field differs
from that constant. -/
theorem c6_version_constant :
    create_db_header.version = PROTO_VER ∧
    (∀ file : List Nat, rd16 ((file.drop 4).take 2) ≠ PROTO_VER →
      validate_db_header file = none) ∧
    (∀ (file : List Nat) (h : DbHeader), validate_db_header file = some h →
      h.version = PROTO_VER) := by
  refine ⟨rfl, ?_, ?_⟩
  · intro file hne
    unfold validate_db_header
    split
    · rfl
    · by_cases hm : rd32 (file.take 4) ≠ HEADER_MAGIC
      · rw [if_pos hm]
      · rw [if_neg hm, if_pos hne]
  · intro file h hsome
    simp only [validate_db_header] at hsome
    split at hsome
    · exact absurd hsome (by simp)
    · split at hsome
      · exact absurd hsome (by simp)
      · split at hsome
        · exact absurd hsome (by simp)
        · split at hsome
          · exact absurd hsome (by simp)
          · next hver _ =>
            obtain rfl := Option.some.inj hsome
            exact not_not.mp hver

/-- Counterexample for C6 as stated: the version constant the code writes
is PROTO_VER = 100, not 1. -/
theorem c6_counterexample : create_db_header.version ≠ 1 := by decide

/-- Witness for C6 at concrete files: an all-zero 12-byte file is rejected
(version 0), and a freshly created empty database validates with
version = PROTO_VER. -/
theorem c6_version_constant_witness :
    (rd16 (((List.replicate 12 (0 : Nat)).drop 4).take 2) ≠ PROTO_VER ∧
      validate_db_header (List.replicate 12 0) = none) ∧
    (validate_db_header (output_file create_db_header [])
        = some { magic := HEADER_MAGIC, version := PROTO_VER, count := 0,
                 filesize := 12 } ∧
      ({ magic := HEADER_MAGIC, version := PROTO_VER, count := 0,
         filesize := 12 } : DbHeader).version = PROTO_VER) :=
  ⟨⟨by decide, c6_version_constant.2.1 (List.replicate 12 0) (by decide)⟩,
   ⟨by decide,
    c6_version_constant.2.2 (output_file create_db_header [])
      { magic := HEADER_MAGIC, version := PROTO_VER, count := 0, filesize := 12 }
      (by decide)⟩⟩

/-! ### Claim C7: behaviour at count = 65535 -/

/-- Claim C7 (code demonstration).  With count = 65535 a well-formed
add-string "a-b-1" does NOT fail: add_employee returns STATUS_SUCCESS and
the uint16_t count wraps to 0 — the code performs no count == 65535
check, contradicting the claim. -/
theorem c7_count_wraps_at_65535 :
    (add_employee
        { count := 65535, employees := List.replicate 65535 uninitEmployee }
        [97, 45, 98, 45, 49]).1 = true ∧
    (add_employee
        { count := 65535, employees := List.replicate 65535 uninitEmployee }
        [97, 45, 98, 45, 49]).2.count = 0 := ⟨rfl, rfl⟩

/-! ### Claim C8: empty name / address fields -/

/-- Claim C8 (code demonstration).  An add-string with an empty name field
(leading '-', here "-Bob-St-12") is ACCEPTED, not rejected: strtok skips
and collapses separators so the tokens are "Bob", "St", "12", and
add_employee appends a record. -/
theorem c8_leading_separator_accepted :
    strtok_tokens [45, 66, 111, 98, 45, 83, 116, 45, 49, 50]
      = [[66, 111, 98], [83, 116], [49, 50]] ∧
    (add_employee { count := 0, employees := [] }
        [45, 66, 111, 98, 45, 83, 116, 45, 49, 50]).1 = true ∧
    (add_employee { count := 0, employees := [] }
        [45, 66, 111, 98, 45, 83, 116, 45, 49, 50]).2.count = 1 :=
  ⟨rfl, rfl, rfl⟩

/-! ### Claim C10: failed adds leave the observable state unchanged -/

/-- Claim C10.  Whenever add_employee fails (server engine, and the batch
CLI variant below the uint16_t wrap point where its slot index would
underflow in C), the observable engine state is unchanged: count keeps its
prior value and the first count records are identical.  States are taken
with the array covering the counted records, as every reachable C state
has. -/
theorem c10_failed_add_preserves_state :
    (∀ (st : DbState) (s : List Nat) (st2 : DbState),
        st.count ≤ st.employees.length →
        add_employee st s = (false, st2) →
        st2.count = st.count ∧
        st2.employees.take st.count = st.employees.take st.count) ∧
    (∀ (st : DbState) (s : List Nat) (st2 : DbState),
        st.count < 65535 → st.count ≤ st.employees.length →
        add_employee_cli st s = (false, st2) →
        st2.count = st.count ∧
        st2.employees.take st.count = st.employees.take st.count) := by
  constructor
  · intro st s st2 hle heq
    cases hp : parsedRecord s with
    | some e =>
      rw [add_employee_parsed_some st s e hp] at heq
      exact absurd (congrArg Prod.fst heq) (by simp)
    | none =>
      have h := add_employee_parsed_none st s hle hp
      have h2 : st2 = (add_employee st s).2 := by rw [heq]
      rw [h2]
      exact ⟨h.2.1, h.2.2⟩
  · intro st s st2 hlt hle heq
    have hc1 : (st.count + 1) % 65536 = st.count + 1 :=
      Nat.mod_eq_of_lt (by omega)
    rw [add_employee_cli, hc1] at heq
    have hdec : (st.count + 1 + 65535) % 65536 = st.count := by omega
    rcases htok : strtok_tokens s with _ | ⟨n, _ | ⟨a, _ | ⟨h, rest⟩⟩⟩
    · simp only [htok] at heq
      simp only [Prod.mk.injEq] at heq
      rw [← heq.2, hdec]
      exact ⟨rfl, by rw [realloc_take _ _ _ hle (Nat.le_succ _)]⟩
    · simp only [htok] at heq
      simp only [Prod.mk.injEq] at heq
      rw [← heq.2, hdec]
      exact ⟨rfl, by rw [realloc_take _ _ _ hle (Nat.le_succ _)]⟩
    · simp only [htok] at heq
      simp only [Prod.mk.injEq] at heq
      rw [← heq.2, hdec]
      exact ⟨rfl, by rw [realloc_take _ _ _ hle (Nat.le_succ _)]⟩
    · simp only [htok] at heq
      cases hv : add_parse_hours h with
      | some v => rw [hv] at heq; simp at heq
      | none =>
        rw [hv] at heq
        simp only [Prod.mk.injEq] at heq
        rw [← heq.2, hdec]
        refine ⟨rfl, ?_⟩
        rw [Nat.add_sub_cancel,
          take_set_ge _ _ _ _ (le_refl st.count),
          realloc_take _ _ _ hle (Nat.le_succ _)]

set_option maxRecDepth 10000 in
/-- Witness for C10: a malformed add ("nope", no separators) on the empty
state fails and leaves the observable state unchanged, in both variants. -/
theorem c10_failed_add_preserves_state_witness :
    ((0 : Nat) ≤ ([] : List Employee).length ∧
      add_employee { count := 0, employees := [] } [110, 111, 112, 101]
        = (false, { count := 0, employees := [] })) ∧
    ((add_employee { count := 0, employees := [] } [110, 111, 112, 101]).2.count = 0 ∧
      (add_employee_cli { count := 0, employees := [] } [110, 111, 112, 101]).2.count = 0 ∧
      (add_employee_cli { count := 0, employees := [] }
          [110, 111, 112, 101]).2.employees.take 0
        = ([] : List Employee).take 0) :=
  ⟨⟨by decide, by decide⟩,
   ⟨(c10_failed_add_preserves_state.1 { count := 0, employees := [] }
       [110, 111, 112, 101] { count := 0, employees := [] }
       (by decide) (by decide)).1,
    (c10_failed_add_preserves_state.2 { count := 0, employees := [] }
       [110, 111, 112, 101] { count := 0, employees := [uninitEmployee] }
       (by decide) (by decide) (by decide)).1,
    (c10_failed_add_preserves_state.2 { count := 0, employees := [] }
       [110, 111, 112, 101] { count := 0, employees := [uninitEmployee] }
       (by decide) (by decide) (by decide)).2⟩⟩

/-! ### Claim C9: hours parsing over a three-field add-string -/

theorem strtokAux_append_no_sep (xs : List Nat) (hx : ∀ c ∈ xs, c ≠ 45) :
    ∀ (ys acc : List Nat),
      strtokAux (xs ++ ys) acc = strtokAux ys (xs.reverse ++ acc) := by
  induction xs with
  | nil => intro ys acc; simp
  | cons c xs ih =>
    intro ys acc
    have hc : c ≠ 45 := hx c (by simp)
    have hxs : ∀ b ∈ xs, b ≠ 45 := fun b hb => hx b (by simp [hb])
    simp only [List.cons_append, strtokAux, if_neg hc, List.append_eq]
    rw [ih hxs ys (c :: acc)]
    congr 1
    simp

theorem strtokAux_sep (ys acc : List Nat) :
    strtokAux (45 :: ys) acc
      = if acc.isEmpty then strtokAux ys []
        else acc.reverse :: strtokAux ys [] := by
  simp [strtokAux]

theorem strtok_tokens_three (n a h : List Nat)
    (hn : n ≠ []) (hn45 : ∀ c ∈ n, c ≠ 45)
    (ha : a ≠ []) (ha45 : ∀ c ∈ a, c ≠ 45)
    (hh : h ≠ []) (hh45 : ∀ c ∈ h, c ≠ 45) :
    strtok_tokens (n ++ 45 :: (a ++ 45 :: h)) = [n, a, h] := by
  unfold strtok_tokens
  rw [strtokAux_append_no_sep n hn45, List.append_nil, strtokAux_sep,
    if_neg (by simp [hn]), List.reverse_reverse,
    strtokAux_append_no_sep a ha45, List.append_nil, strtokAux_sep,
    if_neg (by simp [ha]), List.reverse_reverse]
  have hend := strtokAux_append_no_sep h hh45 [] []
  rw [List.append_nil] at hend
  rw [hend, List.append_nil]
  simp [strtokAux, hh]

/-- Claim C9 (amended).  For an add-string of exactly three nonempty
separator-free fields, add_employee succeeds exactly when strtol-style
parsing of the hours field (optional leading whitespace, optional sign,
then a nonempty digit run consuming the rest of the field) yields a value
in [0, 2^32 - 1]; on success the appended record's hours equals that
value. -/
theorem c9_hours_strtol (st : DbState) (n a h : List Nat)
    (hn : n ≠ []) (hn45 : ∀ c ∈ n, c ≠ 45)
    (ha : a ≠ []) (ha45 : ∀ c ∈ a, c ≠ 45)
    (hh : h ≠ []) (hh45 : ∀ c ∈ h, c ≠ 45) :
    ((add_employee st (n ++ 45 :: (a ++ 45 :: h))).1 = true
        ↔ (add_parse_hours h).isSome = true) ∧
    (∀ v, add_parse_hours h = some v →
      ((add_employee st (n ++ 45 :: (a ++ 45 :: h))).2.employees.getD st.count
          uninitEmployee).hours = v) := by
  have htok := strtok_tokens_three n a h hn hn45 ha ha45 hh hh45
  constructor
  · cases hv : add_parse_hours h with
    | none => simp [add_employee, htok, hv]
    | some v => simp [add_employee, htok, hv]
  · intro v hv
    simp only [add_employee, htok, hv]
    rw [getD_set_self]
    rw [List.length_set, realloc_length]
    omega

/-- Counterexample for C9 as stated: the hours field " 12" (leading
space) is not a decimal integer, yet add_employee accepts it — strtol
skips leading whitespace — and stores hours = 12. -/
theorem c9_counterexample :
    ¬ specDecimalInRange [32, 49, 50] ∧
    (add_employee { count := 0, employees := [] }
        [66, 111, 98, 45, 83, 116, 45, 32, 49, 50]).1 = true ∧
    ((add_employee { count := 0, employees := [] }
        [66, 111, 98, 45, 83, 116, 45, 32, 49, 50]).2.employees.getD 0
        uninitEmployee).hours = 12 :=
  ⟨by decide, rfl, rfl⟩

/-- Witness for C9 at n = "B", a = "S", h = "40". -/
theorem c9_hours_strtol_witness :
    (([66] : List Nat) ≠ [] ∧ ([83] : List Nat) ≠ [] ∧
      ([52, 48] : List Nat) ≠ []) ∧
    (((add_employee { count := 0, employees := [] }
          ([66] ++ 45 :: ([83] ++ 45 :: [52, 48]))).1 = true
        ↔ (add_parse_hours [52, 48]).isSome = true) ∧
      ((add_employee { count := 0, employees := [] }
          ([66] ++ 45 :: ([83] ++ 45 :: [52, 48]))).2.employees.getD 0
          uninitEmployee).hours = 40) :=
  ⟨by decide,
   (c9_hours_strtol { count := 0, employees := [] } [66] [83] [52, 48]
      (by decide) (by decide) (by decide) (by decide) (by decide) (by decide)).1,
   (c9_hours_strtol { count := 0, employees := [] } [66] [83] [52, 48]
      (by decide) (by decide) (by decide) (by decide) (by decide) (by decide)).2
     40 (by decide)⟩

/-! ### Lemmas about the framing codec and the reassembler -/

theorem encode_frame_length (f : Frame) :
    (encode_frame f).length = frameSize f := by
  simp [encode_frame, frameSize, hdrSize]
  omega

theorem encode_frames_cons (g : Frame) (gs : List Frame) :
    encode_frames (g :: gs) = encode_frame g ++ encode_frames gs := by
  simp [encode_frames]

theorem encode_frames_append (gs1 gs2 : List Frame) :
    encode_frames (gs1 ++ gs2) = encode_frames gs1 ++ encode_frames gs2 := by
  simp [encode_frames]

theorem encode_frame_take4 (f : Frame) (R : List Nat) :
    (encode_frame f ++ R).take 4 = be32 f.kind := rfl

theorem encode_frame_drop4_take2 (f : Frame) (R : List Nat) :
    ((encode_frame f ++ R).drop 4).take 2 = be16 f.body.length := rfl

theorem encode_frame_drop8 (f : Frame) (R : List Nat) :
    (encode_frame f ++ R).drop 8 = f.body ++ R := rfl

theorem prefix_take_eq (q full : List Nat) (hq : q <+: full) (k : Nat)
    (hk : k ≤ q.length) : q.take k = full.take k := by
  obtain ⟨r, rfl⟩ := hq
  rw [List.take_append_of_le_length hk]

theorem prefix_drop_take_eq (q full : List Nat) (hq : q <+: full) (a b : Nat)
    (h : a + b ≤ q.length) : (q.drop a).take b = (full.drop a).take b := by
  obtain ⟨r, rfl⟩ := hq
  rw [List.drop_append_of_le_length (by omega),
    List.take_append_of_le_length (by simp; omega)]

theorem residue_kind (g : Frame) (R r : List Nat)
    (hpre : r <+: encode_frame g ++ R) (h4 : 4 ≤ r.length)
    (hk : g.kind < 4294967296) : rd32 (r.take 4) = g.kind := by
  rw [prefix_take_eq r _ hpre 4 h4, encode_frame_take4, rd32_be32 _ hk]

theorem residue_len (g : Frame) (R r : List Nat)
    (hpre : r <+: encode_frame g ++ R) (h6 : 6 ≤ r.length)
    (hl : g.body.length < 65536) :
    rd16 ((r.drop 4).take 2) = g.body.length := by
  rw [prefix_drop_take_eq r _ hpre 4 2 (by omega), encode_frame_drop4_take2,
    rd16_be16 _ hl]

theorem drainLoop_spec (gs1 : List Frame) :
    ∀ (gs2 : List Frame) (r : List Nat) (exp : Nat) (out : List Frame),
      (∀ g ∈ gs1, WFFrame g) → (∀ g ∈ gs2, WFFrame g) →
      r <+: encode_frames gs2 →
      (∀ g gs3, gs2 = g :: gs3 → r.length < frameSize g) →
      (gs2 = [] → r = []) →
      (exp = 0 ∨ (∃ g, (gs1 ++ gs2).head? = some g ∧ exp = frameSize g ∧
          hdrSize ≤ (encode_frames gs1 ++ r).length)) →
      drainLoop (encode_frames gs1 ++ r) exp out =
        { buffer := r, expected := residueExpected gs2 r, closed := false,
          dispatched := out ++ gs1 } := by
  induction gs1 with
  | nil =>
    intro gs2 r exp out _ hwf2 hpre hbound hnil hexp
    have hbuf : encode_frames [] ++ r = r := by simp [encode_frames]
    rw [hbuf]
    rw [hbuf] at hexp
    by_cases hr8 : r.length < hdrSize
    · have hexp0 : exp = 0 := by
        rcases hexp with h | ⟨g, _, _, hge⟩
        · exact h
        · omega
      subst hexp0
      rw [drainLoop, dif_pos hr8]
      have hres : residueExpected gs2 r = 0 := by
        cases gs2 with
        | nil => rfl
        | cons g gs3 =>
          simp [residueExpected, if_neg (by omega : ¬ hdrSize ≤ r.length)]
      rw [hres, List.append_nil]
    · obtain ⟨g, gs3, rfl⟩ : ∃ g gs3, gs2 = g :: gs3 := by
        cases gs2 with
        | nil =>
          rw [hnil rfl] at hr8
          simp [hdrSize] at hr8
        | cons g gs3 => exact ⟨g, gs3, rfl⟩
      have hwg : WFFrame g := hwf2 g (by simp)
      rw [encode_frames_cons] at hpre
      have h8 : hdrSize ≤ r.length := by omega
      have hty : rd32 (r.take 4) = g.kind :=
        residue_kind g _ r hpre (by simp [hdrSize] at h8; omega)
          (by have := hwg.1; simp [MSG_MAX] at this; omega)
      have hln : rd16 ((r.drop 4).take 2) = g.body.length :=
        residue_len g _ r hpre (by simp [hdrSize] at h8; omega)
          (by have := hwg.2; simp [hdrSize, CLIENT_BUFFER_SIZE] at this; omega)
      have hbnd : r.length < frameSize g := hbound g gs3 rfl
      have hres : residueExpected (g :: gs3) r = frameSize g := by
        simp [residueExpected, if_pos h8]
      rcases hexp with rfl | ⟨g2, hg2, rfl, _⟩
      · rw [drainLoop, dif_neg hr8]
        simp only [hty, hln]
        rw [if_neg (by have := hwg.1; omega),
          if_neg (by have := hwg.2; omega),
          if_neg (by simp only [frameSize] at hbnd; omega)]
        rw [hres, List.append_nil]
        rfl
      · have hgg : g2 = g := by
          simp at hg2
          exact hg2.symm
        subst hgg
        obtain ⟨e, he⟩ : ∃ e, frameSize g2 = e + 1 := by
          refine ⟨frameSize g2 - 1, ?_⟩
          simp only [frameSize, hdrSize]
          omega
        rw [he]
        rw [drainLoop, dif_neg hr8]
        rw [if_neg (by omega : ¬ e + 1 ≤ r.length)]
        rw [hres, he, List.append_nil]
  | cons g gs1 ih =>
    intro gs2 r exp out hwf1 hwf2 hpre hbound hnil hexp
    have hwg : WFFrame g := hwf1 g (by simp)
    have hwf1x : ∀ x ∈ gs1, WFFrame x := fun x hx => hwf1 x (by simp [hx])
    have hbuf : encode_frames (g :: gs1) ++ r
        = encode_frame g ++ (encode_frames gs1 ++ r) := by
      rw [encode_frames_cons, List.append_assoc]
    rw [hbuf]
    have hfs8 : hdrSize ≤ frameSize g := by simp [frameSize]
    have hlenbuf : (encode_frame g ++ (encode_frames gs1 ++ r)).length
        = frameSize g + (encode_frames gs1 ++ r).length := by
      rw [List.length_append, encode_frame_length]
    have h8 : ¬ (encode_frame g ++ (encode_frames gs1 ++ r)).length < hdrSize := by
      omega
    have hty : rd32 ((encode_frame g ++ (encode_frames gs1 ++ r)).take 4)
        = g.kind := by
      rw [encode_frame_take4, rd32_be32 _
        (by have := hwg.1; simp [MSG_MAX] at this; omega)]
    have hln : rd16 (((encode_frame g ++ (encode_frames gs1 ++ r)).drop 4).take 2)
        = g.body.length := by
      rw [encode_frame_drop4_take2, rd16_be16 _
        (by have := hwg.2; simp [hdrSize, CLIENT_BUFFER_SIZE] at this; omega)]
    have hdrop : (encode_frame g ++ (encode_frames gs1 ++ r)).drop (frameSize g)
        = encode_frames gs1 ++ r :=
      List.drop_left' (encode_frame_length g)
    have hbody : ((encode_frame g ++ (encode_frames gs1 ++ r)).drop hdrSize).take
        g.body.length = g.body := by
      show ((encode_frame g ++ (encode_frames gs1 ++ r)).drop 8).take _ = _
      rw [encode_frame_drop8, List.take_left' rfl]
    have hrec := ih gs2 r 0 (out ++ [g]) hwf1x hwf2 hpre hbound hnil (Or.inl rfl)
    rcases hexp with rfl | ⟨g2, hg2, rfl, _⟩
    · rw [drainLoop, dif_neg h8]
      simp only [hty, hln]
      rw [if_neg (by have := hwg.1; omega),
        if_neg (by have := hwg.2; omega),
        if_pos (by rw [hlenbuf]; simp only [frameSize]; omega)]
      rw [show hdrSize + g.body.length = frameSize g from rfl, hdrop, hbody, hrec]
      simp
    · have hgg : g2 = g := by
        simp at hg2
        exact hg2.symm
      subst hgg
      obtain ⟨e, he⟩ : ∃ e, frameSize g2 = e + 1 := by
        refine ⟨frameSize g2 - 1, ?_⟩
        simp only [frameSize, hdrSize]
        omega
      rw [he]
      rw [drainLoop, dif_neg h8]
      rw [if_pos (by rw [hlenbuf]; omega)]
      have hb2 : ((encode_frame g2 ++ (encode_frames gs1 ++ r)).drop hdrSize).take
          (e + 1 - hdrSize) = g2.body := by
        rw [show e + 1 - hdrSize = g2.body.length by
          simp only [frameSize, hdrSize] at he ⊢
          omega]
        exact hbody
      rw [show e + 1 = frameSize g2 from he.symm, hdrop]
      rw [show frameSize g2 - hdrSize = g2.body.length by
        simp only [frameSize, hdrSize]; omega] at *
      rw [hty, hbody, hrec]
      simp

theorem prefix_decompose : ∀ (gs : List Frame) (q : List Nat),
    (∀ g ∈ gs, WFFrame g) → q <+: encode_frames gs →
    ∃ gs1 gs2 r, gs = gs1 ++ gs2 ∧ q = encode_frames gs1 ++ r ∧
      r <+: encode_frames gs2 ∧ (gs2 = [] → r = []) ∧
      (∀ g gs3, gs2 = g :: gs3 → r.length < frameSize g) := by
  intro gs
  induction gs with
  | nil =>
    intro q _ hq
    have hqnil : q = [] := by
      simp only [encode_frames, List.map_nil, List.flatten_nil] at hq
      exact List.prefix_nil.mp hq
    subst hqnil
    exact ⟨[], [], [], rfl, by simp [encode_frames], by simp,
      fun _ => rfl, fun g gs3 h => by cases h⟩
  | cons g gs ihg =>
    intro q hwf hq
    rw [encode_frames_cons] at hq
    by_cases hlt : q.length < frameSize g
    · refine ⟨[], g :: gs, q, rfl, by simp [encode_frames], ?_, by simp, ?_⟩
      · rw [encode_frames_cons]; exact hq
      · intro g2 gs3 heq
        cases heq
        exact hlt
    · push_neg at hlt
      obtain ⟨t, ht⟩ := hq
      have hqtake : q.take (frameSize g) = encode_frame g := by
        have h1 : (q ++ t).take (frameSize g) = q.take (frameSize g) :=
          List.take_append_of_le_length hlt
        rw [ht, List.take_left' (encode_frame_length g)] at h1
        exact h1.symm
      have hqdrop : q.drop (frameSize g) <+: encode_frames gs := by
        refine ⟨t, ?_⟩
        have h1 : (q ++ t).drop (frameSize g) = q.drop (frameSize g) ++ t :=
          List.drop_append_of_le_length hlt
        rw [ht, List.drop_left' (encode_frame_length g)] at h1
        exact h1.symm
      obtain ⟨gs1, gs2, r, hgs, hq2, hr, hrnil, hrb⟩ :=
        ihg (q.drop (frameSize g)) (fun x hx => hwf x (by simp [hx])) hqdrop
      refine ⟨g :: gs1, gs2, r, by rw [List.cons_append, ← hgs], ?_, hr, hrnil, hrb⟩
      have hsplit : q = encode_frame g ++ q.drop (frameSize g) := by
        conv_lhs => rw [← List.take_append_drop (frameSize g) q]
        rw [hqtake]
      rw [hsplit, hq2, encode_frames_cons, List.append_assoc]

theorem feedChunk_nil (c : ConnState) : feedChunk c [] = c := by
  rw [feedChunk]
  split
  · rfl
  · rfl

theorem feedChunk_inv : ∀ (fuel : Nat) (data : List Nat), data.length ≤ fuel →
    ∀ (rest : List Nat) (c : ConnState) (gs : List Frame),
      (∀ g ∈ gs, WFFrame g) → ConnInv c gs (data ++ rest) →
      ∃ gs1 gs2, gs = gs1 ++ gs2 ∧
        ConnInv (feedChunk c data) gs2 rest ∧
        (feedChunk c data).dispatched = c.dispatched ++ gs1 := by
  intro fuel
  induction fuel with
  | zero =>
    intro data hd rest c gs hwf hinv
    have hdata : data = [] := List.eq_nil_of_length_eq_zero (by omega)
    subst hdata
    rw [feedChunk_nil]
    exact ⟨[], gs, rfl, hinv, by simp⟩
  | succ fuel ih =>
    intro data hd rest c gs hwf hinv
    cases data with
    | nil =>
      rw [feedChunk_nil]
      exact ⟨[], gs, rfl, hinv, by simp⟩
    | cons d ds =>
      obtain ⟨hop, hstream, hnilbuf, hbound, hexplow, hexphigh⟩ := hinv
      have hlt4096 : c.buffer.length < CLIENT_BUFFER_SIZE := by
        cases hgs0 : gs with
        | nil => rw [hnilbuf hgs0]; simp [CLIENT_BUFFER_SIZE]
        | cons g0 gsx =>
          have h1 := hbound g0 gsx hgs0
          have h2 := (hwf g0 (by simp [hgs0])).2
          simp only [frameSize] at h1
          omega
      have hsne : ¬ (CLIENT_BUFFER_SIZE - c.buffer.length = 0) := by omega
      have hstep : feedChunk c (d :: ds)
          = feedChunk
              (drainLoop (c.buffer ++ (d :: ds).take (CLIENT_BUFFER_SIZE - c.buffer.length))
                c.expected c.dispatched)
              ((d :: ds).drop (CLIENT_BUFFER_SIZE - c.buffer.length)) := by
        rw [feedChunk]
        rw [if_neg (by rw [hop]; simp), dif_neg hsne]
      have hq2 : (c.buffer ++ (d :: ds).take (CLIENT_BUFFER_SIZE - c.buffer.length))
          ++ ((d :: ds).drop (CLIENT_BUFFER_SIZE - c.buffer.length) ++ rest)
          = encode_frames gs := by
        rw [List.append_assoc,
          ← List.append_assoc ((d :: ds).take (CLIENT_BUFFER_SIZE - c.buffer.length)) _ rest,
          List.take_append_drop]
        exact hstream
      obtain ⟨gs1, gs2, r, hgs, hq, hr, hrnil, hrb⟩ :=
        prefix_decompose gs _ hwf
          ⟨(d :: ds).drop (CLIENT_BUFFER_SIZE - c.buffer.length) ++ rest, hq2⟩
      have hwf1 : ∀ g ∈ gs1, WFFrame g := fun g hg => hwf g (by simp [hgs, hg])
      have hwf2 : ∀ g ∈ gs2, WFFrame g := fun g hg => hwf g (by simp [hgs, hg])
      have hcond : c.expected = 0 ∨
          (∃ g, (gs1 ++ gs2).head? = some g ∧ c.expected = frameSize g ∧
            hdrSize ≤ (encode_frames gs1 ++ r).length) := by
        by_cases hlow : c.buffer.length < hdrSize
        · exact Or.inl (hexplow hlow)
        · push_neg at hlow
          obtain ⟨g0, gsx, hgs0, hexp⟩ := hexphigh hlow
          refine Or.inr ⟨g0, ?_, hexp, ?_⟩
          · rw [← hgs, hgs0]
            rfl
          · have : (encode_frames gs1 ++ r).length
                = (c.buffer ++ (d :: ds).take (CLIENT_BUFFER_SIZE - c.buffer.length)).length := by
              rw [← hq]
            rw [this, List.length_append]
            omega
      have hdl := drainLoop_spec gs1 gs2 r c.expected c.dispatched
        hwf1 hwf2 hr hrb hrnil hcond
      have hc2 : drainLoop (c.buffer ++ (d :: ds).take (CLIENT_BUFFER_SIZE - c.buffer.length))
          c.expected c.dispatched
          = { buffer := r, expected := residueExpected gs2 r, closed := false,
              dispatched := c.dispatched ++ gs1 } := by
        rw [hq]
        exact hdl
      have hstream2 : r ++ ((d :: ds).drop (CLIENT_BUFFER_SIZE - c.buffer.length) ++ rest)
          = encode_frames gs2 := by
        have h1 : encode_frames gs = encode_frames gs1 ++ encode_frames gs2 := by
          rw [hgs, encode_frames_append]
        rw [h1, hq] at hq2
        rw [List.append_assoc] at hq2
        exact List.append_cancel_left hq2
      have hinv2 : ConnInv
          { buffer := r, expected := residueExpected gs2 r, closed := false,
            dispatched := c.dispatched ++ gs1 } gs2
          ((d :: ds).drop (CLIENT_BUFFER_SIZE - c.buffer.length) ++ rest) := by
        refine ⟨rfl, hstream2, hrnil, hrb, ?_, ?_⟩
        · intro hlow
          have hlow2 : r.length < hdrSize := hlow
          cases gs2 with
          | nil => rfl
          | cons g2 gsx =>
            show residueExpected (g2 :: gsx) r = 0
            simp only [residueExpected]
            rw [if_neg (by omega)]
        · intro hhigh
          have hhigh2 : hdrSize ≤ r.length := hhigh
          cases hgs2 : gs2 with
          | nil =>
            rw [hrnil hgs2] at hhigh2
            simp [hdrSize] at hhigh2
          | cons g2 gsx =>
            refine ⟨g2, gsx, rfl, ?_⟩
            show residueExpected (g2 :: gsx) r = frameSize g2
            simp only [residueExpected]
            rw [if_pos hhigh2]
      have hfuel : ((d :: ds).drop (CLIENT_BUFFER_SIZE - c.buffer.length)).length ≤ fuel := by
        rw [List.length_drop]
        simp only [List.length_cons] at hd ⊢
        omega
      obtain ⟨gs2a, gs2b, hgs2ab, hinv3, hdisp3⟩ :=
        ih _ hfuel rest _ gs2 hwf2 hinv2
      rw [hstep, hc2]
      refine ⟨gs1 ++ gs2a, gs2b, ?_, hinv3, ?_⟩
      · rw [hgs, hgs2ab, List.append_assoc]
      · rw [hdisp3]
        simp [List.append_assoc]

theorem processChunks_inv : ∀ (chunks : List (List Nat)) (c : ConnState)
    (gs : List Frame),
    (∀ g ∈ gs, WFFrame g) → ConnInv c gs chunks.flatten →
    ∃ gs1 gs2, gs = gs1 ++ gs2 ∧
      ConnInv (chunks.foldl feedChunk c) gs2 [] ∧
      (chunks.foldl feedChunk c).dispatched = c.dispatched ++ gs1 := by
  intro chunks
  induction chunks with
  | nil =>
    intro c gs hwf hinv
    exact ⟨[], gs, rfl, hinv, by simp⟩
  | cons ch chs ihc =>
    intro c gs hwf hinv
    rw [List.flatten_cons] at hinv
    obtain ⟨gs1, gs2, hgs, hinv2, hdisp2⟩ :=
      feedChunk_inv ch.length ch (le_refl _) chs.flatten c gs hwf hinv
    obtain ⟨gs2a, gs2b, hgs2, hinv3, hdisp3⟩ :=
      ihc (feedChunk c ch) gs2 (fun g hg => hwf g (by simp [hgs, hg])) hinv2
    refine ⟨gs1 ++ gs2a, gs2b, by rw [hgs, hgs2, List.append_assoc], hinv3, ?_⟩
    show (chs.foldl feedChunk (feedChunk c ch)).dispatched = _
    rw [hdisp3, hdisp2, List.append_assoc]

/-- Claim C3.  For every byte stream that is a concatenation of
well-formed frames and every way of splitting it into successive nonempty
chunks fed to the connection-state reassembler, the dispatched frame
sequence equals the original frame sequence, the connection stays open and
the buffer drains completely. -/
theorem c3_reassembly_robust (fs : List Frame) (chunks : List (List Nat))
    (hwf : ∀ f ∈ fs, WFFrame f) (hne : ∀ ch ∈ chunks, ch ≠ [])
    (hjoin : chunks.flatten = encode_frames fs) :
    (processChunks chunks).dispatched = fs ∧
    (processChunks chunks).closed = false ∧
    (processChunks chunks).buffer = [] := by
  have hinv : ConnInv ⟨[], 0, false, []⟩ fs chunks.flatten := by
    refine ⟨rfl, by simpa using hjoin, fun _ => rfl, ?_, fun _ => rfl, ?_⟩
    · intro g gs2 hgs
      show ([] : List Nat).length < frameSize g
      simp only [frameSize, hdrSize, List.length_nil]
      omega
    · intro hcontra
      simp [hdrSize] at hcontra
  obtain ⟨gs1, gs2, hgs, hinv2, hdisp⟩ := processChunks_inv chunks _ fs hwf hinv
  obtain ⟨hop2, hstream2, hnil2, hbound2, _, _⟩ := hinv2
  have hgs2nil : gs2 = [] := by
    cases hgs2 : gs2 with
    | nil => rfl
    | cons g2 gsx =>
      have h1 := hbound2 g2 gsx hgs2
      have h2 : (List.foldl feedChunk ⟨[], 0, false, []⟩ chunks).buffer
          = encode_frames gs2 := by
        have h3 := hstream2
        rw [List.append_nil] at h3
        exact h3
      rw [h2, hgs2, encode_frames_cons, List.length_append,
        encode_frame_length] at h1
      omega
  subst hgs2nil
  rw [List.append_nil] at hgs
  subst hgs
  refine ⟨by simpa using hdisp, hop2, ?_⟩
  exact hnil2 rfl

/-- Witness for C3: a HelloReq frame (proto 100) followed by a ListReq,
delivered in chunks of 3, 4 and 11 bytes that straddle both frame
boundaries. -/
theorem c3_reassembly_robust_witness :
    ((∀ f ∈ [Frame.mk 0 [0, 100], Frame.mk 2 []], WFFrame f) ∧
      (∀ ch ∈ [[0, 0, 0], [0, 0, 2, 0], [0, 0, 100, 0, 0, 0, 2, 0, 0, 0, 0]],
        ch ≠ ([] : List Nat)) ∧
      ([[0, 0, 0], [0, 0, 2, 0], [0, 0, 100, 0, 0, 0, 2, 0, 0, 0, 0]] :
          List (List Nat)).flatten
        = encode_frames [Frame.mk 0 [0, 100], Frame.mk 2 []]) ∧
    (processChunks [[0, 0, 0], [0, 0, 2, 0], [0, 0, 100, 0, 0, 0, 2, 0, 0, 0, 0]]).dispatched
      = [Frame.mk 0 [0, 100], Frame.mk 2 []] ∧
    (processChunks [[0, 0, 0], [0, 0, 2, 0], [0, 0, 100, 0, 0, 0, 2, 0, 0, 0, 0]]).closed
      = false ∧
    (processChunks [[0, 0, 0], [0, 0, 2, 0], [0, 0, 100, 0, 0, 0, 2, 0, 0, 0, 0]]).buffer
      = [] :=
  ⟨⟨by decide, by decide, by decide⟩,
   c3_reassembly_robust [Frame.mk 0 [0, 100], Frame.mk 2 []]
     [[0, 0, 0], [0, 0, 2, 0], [0, 0, 100, 0, 0, 0, 2, 0, 0, 0, 0]]
     (by decide) (by decide) (by decide)⟩

theorem drainLoop_dispatched_mono : ∀ (fuel : Nat) (buf : List Nat),
    buf.length ≤ fuel → ∀ (exp : Nat) (out : List Frame),
    ∃ tail, (drainLoop buf exp out).dispatched = out ++ tail := by
  intro fuel
  induction fuel with
  | zero =>
    intro buf hb exp out
    have hnil : buf = [] := List.eq_nil_of_length_eq_zero (by omega)
    subst hnil
    rw [drainLoop.eq_def, dif_pos (by simp [hdrSize])]
    exact ⟨[], by simp⟩
  | succ fuel ih =>
    intro buf hb exp out
    by_cases h8 : buf.length < hdrSize
    · rw [drainLoop.eq_def, dif_pos h8]
      exact ⟨[], by simp⟩
    · have h8n : (8 : Nat) ≤ buf.length := by
        simp only [hdrSize] at h8
        omega
      cases exp with
      | zero =>
        rw [drainLoop, dif_neg h8]
        by_cases hk : MSG_MAX ≤ rd32 (buf.take 4)
        · rw [if_pos hk]
          exact ⟨[], by simp⟩
        · rw [if_neg hk]
          by_cases hcap : CLIENT_BUFFER_SIZE < hdrSize + rd16 ((buf.drop 4).take 2)
          · rw [if_pos hcap]
            exact ⟨[], by simp⟩
          · rw [if_neg hcap]
            by_cases hcm : hdrSize + rd16 ((buf.drop 4).take 2) ≤ buf.length
            · rw [if_pos hcm]
              obtain ⟨t, ht⟩ := ih (buf.drop (hdrSize + rd16 ((buf.drop 4).take 2)))
                (by
                  rw [List.length_drop]
                  simp only [hdrSize] at *
                  omega) 0
                (out ++ [{ kind := rd32 (buf.take 4),
                           body := (buf.drop hdrSize).take (rd16 ((buf.drop 4).take 2)) }])
              rw [List.append_assoc] at ht
              exact ⟨_, ht⟩
            · rw [if_neg hcm]
              exact ⟨[], by simp⟩
      | succ e =>
        rw [drainLoop, dif_neg h8]
        by_cases hcm : e + 1 ≤ buf.length
        · rw [if_pos hcm]
          obtain ⟨t, ht⟩ := ih (buf.drop (e + 1))
            (by rw [List.length_drop]; omega) 0
            (out ++ [{ kind := rd32 (buf.take 4),
                       body := (buf.drop hdrSize).take (e + 1 - hdrSize) }])
          rw [List.append_assoc] at ht
          exact ⟨_, ht⟩
        · rw [if_neg hcm]
          exact ⟨[], by simp⟩

/-- Claim C4 (amended).  For every buffered prefix holding at least a full
frame header — which occupies sizeof(dbproto_hdr_t) = 8 octets: 4-octet
big-endian kind, 2-octet big-endian length and 2 padding octets — the
decoder closes the connection (Malformed) exactly when the kind is at
least MSG_MAX or 8 + len exceeds the 4096-byte buffer; otherwise it
reports Incomplete (caching 8 + len) while fewer than 8 + len octets are
buffered, and dispatches the decoded frame once 8 + len octets have
arrived. -/
theorem c4_frame_classification (buf : List Nat) (h8 : hdrSize ≤ buf.length) :
    ((MSG_MAX ≤ rd32 (buf.take 4) ∨
        CLIENT_BUFFER_SIZE < hdrSize + rd16 ((buf.drop 4).take 2)) →
      (drainLoop buf 0 []).closed = true ∧
      (drainLoop buf 0 []).dispatched = []) ∧
    (rd32 (buf.take 4) < MSG_MAX →
      hdrSize + rd16 ((buf.drop 4).take 2) ≤ CLIENT_BUFFER_SIZE →
      buf.length < hdrSize + rd16 ((buf.drop 4).take 2) →
      drainLoop buf 0 [] =
        { buffer := buf, expected := hdrSize + rd16 ((buf.drop 4).take 2),
          closed := false, dispatched := [] }) ∧
    (rd32 (buf.take 4) < MSG_MAX →
      hdrSize + rd16 ((buf.drop 4).take 2) ≤ CLIENT_BUFFER_SIZE →
      hdrSize + rd16 ((buf.drop 4).take 2) ≤ buf.length →
      (drainLoop buf 0 []).dispatched.head?
        = some { kind := rd32 (buf.take 4),
                 body := (buf.drop hdrSize).take (rd16 ((buf.drop 4).take 2)) }) := by
  have hnlt : ¬ buf.length < hdrSize := by omega
  refine ⟨?_, ?_, ?_⟩
  · intro hmal
    by_cases hk : MSG_MAX ≤ rd32 (buf.take 4)
    · rw [drainLoop, dif_neg hnlt, if_pos hk]
      exact ⟨rfl, rfl⟩
    · have hl : CLIENT_BUFFER_SIZE < hdrSize + rd16 ((buf.drop 4).take 2) := by
        rcases hmal with h | h
        · exact absurd h hk
        · exact h
      rw [drainLoop, dif_neg hnlt, if_neg hk, if_pos hl]
      exact ⟨rfl, rfl⟩
  · intro hk hcap hincomp
    rw [drainLoop, dif_neg hnlt, if_neg (by omega), if_neg (by omega),
      if_neg (by omega)]
  · intro hk hcap hcomp
    rw [drainLoop, dif_neg hnlt, if_neg (by omega), if_neg (by omega),
      if_pos hcomp]
    obtain ⟨t, ht⟩ := drainLoop_dispatched_mono
      (buf.drop (hdrSize + rd16 ((buf.drop 4).take 2))).length _ (le_refl _) 0
      ([] ++ [{ kind := rd32 (buf.take 4),
                body := (buf.drop hdrSize).take (rd16 ((buf.drop 4).take 2)) }])
    rw [ht]
    simp

/-- Counterexample for C4 as stated: 6 octets [0,0,0,2,0,0] — a complete
ListReq frame under the claimed 6-octet header (kind 2, len 0, so
6 + len = 6 octets have arrived) — dispatch nothing: the code waits for
sizeof(dbproto_hdr_t) = 8 octets and stays Incomplete. -/
theorem c4_counterexample :
    rd32 (([0, 0, 0, 2, 0, 0] : List Nat).take 4) = 2 ∧
    rd16 ((([0, 0, 0, 2, 0, 0] : List Nat).drop 4).take 2) = 0 ∧
    (drainLoop [0, 0, 0, 2, 0, 0] 0 []).dispatched = [] ∧
    (drainLoop [0, 0, 0, 2, 0, 0] 0 []).closed = false ∧
    (drainLoop [0, 0, 0, 2, 0, 0] 0 []).expected = 0 := by
  refine ⟨by decide, by decide, ?_, ?_, ?_⟩ <;>
    rw [drainLoop, dif_pos (by decide)]

/-- Witness for C4 at the 8-octet complete ListReq frame. -/
theorem c4_frame_classification_witness :
    (hdrSize ≤ ([0, 0, 0, 2, 0, 0, 0, 0] : List Nat).length ∧
      rd32 (([0, 0, 0, 2, 0, 0, 0, 0] : List Nat).take 4) < MSG_MAX ∧
      hdrSize + rd16 ((([0, 0, 0, 2, 0, 0, 0, 0] : List Nat).drop 4).take 2)
        ≤ CLIENT_BUFFER_SIZE ∧
      hdrSize + rd16 ((([0, 0, 0, 2, 0, 0, 0, 0] : List Nat).drop 4).take 2)
        ≤ ([0, 0, 0, 2, 0, 0, 0, 0] : List Nat).length) ∧
    (drainLoop [0, 0, 0, 2, 0, 0, 0, 0] 0 []).dispatched.head?
      = some { kind := rd32 (([0, 0, 0, 2, 0, 0, 0, 0] : List Nat).take 4),
               body := (([0, 0, 0, 2, 0, 0, 0, 0] : List Nat).drop hdrSize).take
                 (rd16 ((([0, 0, 0, 2, 0, 0, 0, 0] : List Nat).drop 4).take 2)) } :=
  ⟨by decide,
   (c4_frame_classification [0, 0, 0, 2, 0, 0, 0, 0] (by decide)).2.2
     (by decide) (by decide) (by decide)⟩

/-! ### Claim C5: ListResp length field and record stream -/

/-- Claim C5.  For every ListReq handled in the Ready state (empty
request body), the ListResp header's len field is 2 and covers exactly the
2-octet count body; the server then sends exactly count record-sized
(516-byte) chunks, one per stored record in insertion order, which are not
counted in that len field. -/
theorem c5_list_resp_stream (count : Nat) (es : List Employee) (reqLen : Nat)
    (hc : count = es.length) (hwf : ∀ e ∈ es, WFEmployee e)
    (hreq : reqLen = 0) :
    fsm_handle_list_employees count es reqLen
      = some { respType := MSG_EMPLOYEE_LIST_RESP, respLen := 2,
               countBytes := be16 count,
               trailing := es.map encode_employee } ∧
    (be16 count).length = 2 ∧
    (es.map encode_employee).length = count ∧
    (∀ t ∈ es.map encode_employee, t.length = employeeSize) := by
  subst hc
  subst hreq
  refine ⟨?_, rfl, by simp, ?_⟩
  · rw [fsm_handle_list_employees, if_neg (by simp)]
    rw [List.take_length]
  · intro t ht
    rw [List.mem_map] at ht
    obtain ⟨e, he, rfl⟩ := ht
    exact encode_employee_length e (hwf e he)

set_option maxRecDepth 10000 in
/-- Witness for C5 with one stored record. -/
theorem c5_list_resp_stream_witness :
    ((1 : Nat) = ([Employee.mk (97 :: List.replicate 255 0)
        (98 :: List.replicate 255 0) 40]).length ∧
      (∀ e ∈ [Employee.mk (97 :: List.replicate 255 0)
          (98 :: List.replicate 255 0) 40], WFEmployee e)) ∧
    (fsm_handle_list_employees 1
        [Employee.mk (97 :: List.replicate 255 0) (98 :: List.replicate 255 0) 40] 0
      = some { respType := MSG_EMPLOYEE_LIST_RESP, respLen := 2,
               countBytes := be16 1,
               trailing := [Employee.mk (97 :: List.replicate 255 0)
                   (98 :: List.replicate 255 0) 40].map encode_employee } ∧
      (∀ t ∈ [Employee.mk (97 :: List.replicate 255 0)
          (98 :: List.replicate 255 0) 40].map encode_employee,
        t.length = employeeSize)) :=
  ⟨⟨by decide, by decide⟩,
   (c5_list_resp_stream 1
      [Employee.mk (97 :: List.replicate 255 0) (98 :: List.replicate 255 0) 40] 0
      (by decide) (by decide) rfl).1,
   (c5_list_resp_stream 1
      [Employee.mk (97 :: List.replicate 255 0) (98 :: List.replicate 255 0) 40] 0
      (by decide) (by decide) rfl).2.2.2⟩
